import Mathlib

/-!
Verification of the point-source panner core (`ear/core/point_source.py`).

The numerical code is embedded over the real numbers: `numpy` float vectors
become functions `Fin n → ℝ`, `np.linalg.norm` becomes `normVec`,
matrix-vector products become `Matrix.vecMul` / `Matrix.mulVec`, and fallible
handlers return `Option`.  External collaborators that are not part of this
repository's core source (scipy's convex hull, `np.roots`, and the vertex
ordering helper `ngon_vertex_order` from `geom.py`) are taken as parameters of
the embedded definitions.  The function `extra_pos_vertical_nominal`, which is
pure rational arithmetic, is embedded over `ℚ` so that it stays executable.
-/

namespace EarCore

/-- `np.linalg.norm`: the L2 norm of a vector. -/
noncomputable def normVec {n : ℕ} (v : Fin n → ℝ) : ℝ := Real.sqrt (∑ i, v i ^ 2)

/-- numpy fancy assignment `out[output_channels] = pv` into a fresh zero
buffer, as performed by `RegionHandler.handle_remap`: the assignments happen
in index order, so on duplicate channels the later entry wins. -/
noncomputable def remap {m : ℕ} {β : Type*} [DecidableEq β] (oc : Fin m → β)
    (pv : Fin m → ℝ) : β → ℝ :=
  (List.finRange m).foldl (fun acc k => Function.update acc (oc k) (pv k)) (fun _ => 0)

theorem normVec_nonneg {n : ℕ} (v : Fin n → ℝ) : 0 ≤ normVec v := Real.sqrt_nonneg _

theorem normVec_pos {n : ℕ} (v : Fin n → ℝ) (h : v ≠ 0) : 0 < normVec v := by
  rcases Function.ne_iff.1 h with ⟨i, hi⟩
  exact Real.sqrt_pos.2 (Finset.sum_pos' (fun j _ => sq_nonneg _)
    ⟨i, Finset.mem_univ i, lt_of_le_of_ne (sq_nonneg _) (Ne.symm (pow_ne_zero 2 hi))⟩)

theorem normVec_smul {n : ℕ} (c : ℝ) (v : Fin n → ℝ) :
    normVec (fun i => c * v i) = |c| * normVec v := by
  unfold normVec
  have h : (∑ i, (c * v i) ^ 2) = c ^ 2 * ∑ i, v i ^ 2 := by
    rw [Finset.mul_sum]; exact Finset.sum_congr rfl (fun i _ => by ring)
  rw [h, Real.sqrt_mul (sq_nonneg c), Real.sqrt_sq_eq_abs]

theorem abs_le_normVec {n : ℕ} (v : Fin n → ℝ) (i : Fin n) : |v i| ≤ normVec v := by
  rw [← Real.sqrt_sq_eq_abs]
  exact Real.sqrt_le_sqrt (Finset.single_le_sum (fun j _ => sq_nonneg (v j)) (Finset.mem_univ i))

theorem normVec_div_self {n : ℕ} (v : Fin n → ℝ) (h : v ≠ 0) :
    normVec (fun i => v i / normVec v) = 1 := by
  have hpos := normVec_pos v h
  have h1 : (fun i => v i / normVec v) = fun i => (normVec v)⁻¹ * v i := by
    funext i; rw [div_eq_inv_mul]
  rw [h1, normVec_smul, abs_of_pos (inv_pos.2 hpos), inv_mul_cancel₀ (ne_of_gt hpos)]

/-! ## Triplet (VBAP), from `Triplet` in point_source.py -/

/-- The stored attributes of a `Triplet` region handler. -/
structure Triplet where
  output_channels : Fin 3 → ℕ
  positions : Matrix (Fin 3) (Fin 3) ℝ

/-- `self._basis = np.linalg.inv(self.positions)`. -/
noncomputable def Triplet.basis (t : Triplet) : Matrix (Fin 3) (Fin 3) ℝ := t.positions⁻¹

/-- `pv = np.dot(position, self._basis)` in `Triplet.handle`. -/
noncomputable def Triplet.pv (t : Triplet) (position : Fin 3 → ℝ) : Fin 3 → ℝ :=
  Matrix.vecMul position t.basis

/-- `Triplet.handle`: accept when all basis coordinates are at least `-1e-11`,
then divide by the norm and clip to `[0, 1]` (in that order, as the code
does `pv /= np.linalg.norm(pv)` followed by `pv.clip(0, 1, out=pv)`). -/
noncomputable def Triplet.handle (t : Triplet) (position : Fin 3 → ℝ) :
    Option (Fin 3 → ℝ) :=
  let pv := t.pv position
  if -1e-11 ≤ pv 0 ∧ -1e-11 ≤ pv 1 ∧ -1e-11 ≤ pv 2 then
    some (fun i => min 1 (max 0 (pv i / normVec pv)))
  else none

theorem Triplet.handle_isSome_iff (t : Triplet) (p : Fin 3 → ℝ) :
    (t.handle p).isSome ↔ ∀ i, -1e-11 ≤ t.pv p i := by
  unfold Triplet.handle
  by_cases h : -1e-11 ≤ t.pv p 0 ∧ -1e-11 ≤ t.pv p 1 ∧ -1e-11 ≤ t.pv p 2
  · rw [if_pos h]
    constructor
    · intro _ i
      fin_cases i
      exacts [h.1, h.2.1, h.2.2]
    · intro _; rfl
  · rw [if_neg h]
    constructor
    · intro hcontra; exact (Bool.false_ne_true hcontra).elim
    · intro hall; exact absurd ⟨hall 0, hall 1, hall 2⟩ h

theorem Triplet.handle_eq_some (t : Triplet) (p : Fin 3 → ℝ)
    (h : ∀ i, -1e-11 ≤ t.pv p i) :
    t.handle p = some (fun i => min 1 (max 0 (t.pv p i / normVec (t.pv p)))) := by
  unfold Triplet.handle
  have hc : -1e-11 ≤ t.pv p 0 ∧ -1e-11 ≤ t.pv p 1 ∧ -1e-11 ≤ t.pv p 2 := ⟨h 0, h 1, h 2⟩
  rw [if_pos hc]

/-- A triplet whose positions are the identity matrix: its basis is also the
identity, so `pv = position`; used as a concrete example instance. -/
noncomputable def tripletId : Triplet := ⟨![0, 1, 2], 1⟩

theorem tripletId_pv (p : Fin 3 → ℝ) : tripletId.pv p = p := by
  unfold Triplet.pv Triplet.basis tripletId
  rw [inv_one, Matrix.vecMul_one]

theorem Triplet.pv_smul (t : Triplet) (p : Fin 3 → ℝ) (s : ℝ) :
    t.pv (s • p) = fun i => s * t.pv p i := by
  unfold Triplet.pv
  rw [Matrix.vecMul_smul]
  rfl

theorem Triplet.pv_zero (t : Triplet) : t.pv 0 = 0 := Matrix.zero_vecMul _

/-- When every basis coordinate is nonnegative, the clip to `[0, 1]` is the
identity on the normalised coordinates. -/
theorem Triplet.clip_eq_of_nonneg (pv : Fin 3 → ℝ) (h0 : ∀ i, 0 ≤ pv i)
    (hne : pv ≠ 0) (i : Fin 3) :
    min 1 (max 0 (pv i / normVec pv)) = pv i / normVec pv := by
  have hN := normVec_pos pv hne
  have hnn : 0 ≤ pv i / normVec pv := div_nonneg (h0 i) (le_of_lt hN)
  have hle : pv i / normVec pv ≤ 1 := by
    rw [div_le_one hN]
    exact le_trans (le_abs_self _) (abs_le_normVec pv i)
  rw [max_eq_right hnn, min_eq_right hle]

/-- C2 (amended): `Triplet.handle` succeeds iff every coordinate of
`p · positions⁻¹` is at least `-1e-11`.  On success, the gain vector is
the basis coordinates first L2-normalised and then clipped to `[0, 1]`
(the code divides by the norm before clamping negatives, not after).
When every coordinate is nonnegative and not all are zero, no clamping is
active and the gains satisfy the original contract exactly: unit norm,
all components nonnegative, and `g · positions` equal to `p` scaled by the
positive factor `1 / ‖p · positions⁻¹‖`, hence collinear with `p` in the
same half-space. -/
theorem C2_triplet_contract (t : Triplet) (p : Fin 3 → ℝ)
    (hdet : IsUnit t.positions.det) :
    ((t.handle p).isSome ↔ ∀ i, -1e-11 ≤ t.pv p i)
    ∧ (∀ g, t.handle p = some g →
        g = fun i => min 1 (max 0 (t.pv p i / normVec (t.pv p))))
    ∧ ((∀ i, 0 ≤ t.pv p i) → t.pv p ≠ 0 →
        t.handle p = some (fun i => t.pv p i / normVec (t.pv p))
        ∧ normVec (fun i => t.pv p i / normVec (t.pv p)) = 1
        ∧ (∀ i, 0 ≤ t.pv p i / normVec (t.pv p))
        ∧ Matrix.vecMul (fun i => t.pv p i / normVec (t.pv p)) t.positions
            = (normVec (t.pv p))⁻¹ • p) := by
  refine ⟨t.handle_isSome_iff p, ?_, ?_⟩
  · intro g hg
    unfold Triplet.handle at hg
    by_cases h : -1e-11 ≤ t.pv p 0 ∧ -1e-11 ≤ t.pv p 1 ∧ -1e-11 ≤ t.pv p 2
    · rw [if_pos h] at hg
      exact (Option.some_inj.1 hg).symm
    · rw [if_neg h] at hg
      exact absurd hg (by simp)
  · intro h0 hne
    have hclip := Triplet.clip_eq_of_nonneg (t.pv p) h0 hne
    have hsome : t.handle p = some (fun i => t.pv p i / normVec (t.pv p)) := by
      rw [t.handle_eq_some p (fun i => le_trans (by norm_num) (h0 i))]
      congr 1
      funext i
      exact hclip i
    refine ⟨hsome, normVec_div_self _ hne, ?_, ?_⟩
    · intro i
      exact div_nonneg (h0 i) (normVec_nonneg _)
    · have hfun : (fun i => t.pv p i / normVec (t.pv p))
          = (normVec (t.pv p))⁻¹ • t.pv p := by
        funext i
        rw [Pi.smul_apply, smul_eq_mul, div_eq_inv_mul]
      rw [hfun, Matrix.vecMul_smul]
      unfold Triplet.pv Triplet.basis
      rw [Matrix.vecMul_vecMul, Matrix.nonsing_inv_mul _ hdet, Matrix.vecMul_one]

/-- Witness: the identity-basis triplet accepts the position `(1, 1, 1)`. -/
theorem C2_triplet_contract_witness : (tripletId.handle ![1, 1, 1]).isSome = true := by
  have h := C2_triplet_contract tripletId ![1, 1, 1]
    (by unfold tripletId; simp)
  refine h.1.mpr ?_
  intro i
  rw [tripletId_pv]
  fin_cases i <;> norm_num

/-- The position used in the C2 counterexample: its identity-basis
coordinates are `(-1e-11, 2e-11, 2e-11)`, which pass the tolerance test
while one of them is strictly negative. -/
noncomputable def pC2 : Fin 3 → ℝ := ![-1e-11, 2e-11, 2e-11]

theorem normVec_pC2 : normVec pC2 = 3e-11 := by
  have hsum : (∑ i, pC2 i ^ 2) = (3e-11 : ℝ) ^ 2 := by
    rw [Fin.sum_univ_three]
    unfold pC2
    norm_num
  unfold normVec
  rw [hsum, Real.sqrt_sq (by norm_num)]

/-- C2 counterexample: on the position whose basis coordinates are
`(-1e-11, 2e-11, 2e-11)` the code returns the gains `(0, 2/3, 2/3)`
(normalise first, then clamp), whose L2 norm is `√(8/9) ≠ 1`; the claim
predicts the clamp-then-normalise result `(0, √½, √½)` of norm exactly 1. -/
theorem C2_counterexample :
    tripletId.handle pC2 = some ![0, 2/3, 2/3]
    ∧ normVec (![0, 2/3, 2/3] : Fin 3 → ℝ) ≠ 1 := by
  constructor
  · rw [tripletId.handle_eq_some pC2
      (by intro i; rw [tripletId_pv]; fin_cases i <;> unfold pC2 <;> norm_num)]
    congr 1
    funext i
    rw [tripletId_pv, normVec_pC2]
    fin_cases i <;> unfold pC2 <;> norm_num
  · intro h
    have hsum : (∑ i, ((![0, 2/3, 2/3] : Fin 3 → ℝ) i) ^ 2) = 8/9 := by
      rw [Fin.sum_univ_three]
      norm_num
    have h2 := congrArg (fun x => x ^ 2) h
    simp only [normVec, hsum] at h2
    rw [Real.sq_sqrt (by norm_num)] at h2
    norm_num at h2

/-- C8 (amended): the result of `Triplet.handle` is invariant under positive
scaling of the position whenever all basis coordinates are nonnegative; the
invariance can fail inside the `-1e-11` tolerance band (see the
counterexample), and there is no zero-position check: the zero position
passes the tolerance test and is returned as a zero gain vector (the code
divides 0 by 0; the embedding uses the `0 / 0 = 0` convention where numpy
produces NaNs). -/
theorem C8_scale_invariance (t : Triplet) (p : Fin 3 → ℝ) (s : ℝ) (hs : 0 < s)
    (h0 : ∀ i, 0 ≤ t.pv p i) :
    t.handle (s • p) = t.handle p ∧ t.handle 0 = some (fun _ => 0) := by
  constructor
  · have hpv := t.pv_smul p s
    have hcond : ∀ i, -1e-11 ≤ t.pv (s • p) i := by
      intro i
      rw [hpv]
      have : (0:ℝ) ≤ s * t.pv p i := mul_nonneg (le_of_lt hs) (h0 i)
      linarith
    rw [t.handle_eq_some _ hcond,
      t.handle_eq_some p (fun i => le_trans (by norm_num) (h0 i))]
    congr 1
    funext i
    have hnorm : normVec (t.pv (s • p)) = s * normVec (t.pv p) := by
      rw [hpv, normVec_smul, abs_of_pos hs]
    rw [hnorm]
    simp only [hpv]
    rw [mul_div_mul_left _ _ (ne_of_gt hs)]
  · rw [t.handle_eq_some 0 (by intro i; rw [t.pv_zero]; norm_num)]
    congr 1
    funext i
    rw [t.pv_zero]
    simp

/-- Witness for C8: scaling `(1, 1, 1)` by 2 does not change the result on
the identity-basis triplet. -/
theorem C8_scale_invariance_witness :
    tripletId.handle ((2:ℝ) • ![1, 1, 1]) = tripletId.handle ![1, 1, 1] :=
  (C8_scale_invariance tripletId ![1, 1, 1] 2 (by norm_num)
    (by intro i; rw [tripletId_pv]; fin_cases i <;> norm_num)).1

/-- C8 counterexample: the position with identity-basis coordinates
`(-1e-11, 1, 1)` is accepted, but its double `(-2e-11, 2, 2)` fails the
`-1e-11` tolerance test, so `handle(2·p) ≠ handle(p)`. -/
theorem C8_counterexample :
    (tripletId.handle ![-1e-11, 1, 1]).isSome = true
    ∧ tripletId.handle ((2:ℝ) • ![-1e-11, 1, 1]) = none := by
  constructor
  · refine (tripletId.handle_isSome_iff _).mpr ?_
    intro i
    rw [tripletId_pv]
    fin_cases i <;> norm_num
  · unfold Triplet.handle
    rw [if_neg]
    intro hcond
    have h0 := hcond.1
    rw [tripletId_pv] at h0
    simp only [Pi.smul_apply, smul_eq_mul] at h0
    norm_num at h0

/-- C9 (amended): `handle` is a total function into `Option`, and for every
nonzero position (with an invertible speaker matrix) the norm that the
`Triplet` normalisation divides by is strictly positive; at the zero
position the tolerance guard passes and the norm divided by is zero (numpy
emits NaN gains rather than raising an error; see the counterexample). -/
theorem C9_no_zero_norm_division (t : Triplet) (p : Fin 3 → ℝ)
    (hdet : IsUnit t.positions.det) (hp : p ≠ 0) :
    0 < normVec (t.pv p) := by
  refine normVec_pos _ ?_
  intro hz
  apply hp
  have h1 : Matrix.vecMul (t.pv p) t.positions = p := by
    unfold Triplet.pv Triplet.basis
    rw [Matrix.vecMul_vecMul, Matrix.nonsing_inv_mul _ hdet, Matrix.vecMul_one]
  rw [← h1, hz, Matrix.zero_vecMul]

/-- Witness for C9: the norm divided by is positive at `(1, 0, 0)` for the
identity-basis triplet. -/
theorem C9_no_zero_norm_division_witness : 0 < normVec (tripletId.pv ![1, 0, 0]) :=
  C9_no_zero_norm_division tripletId ![1, 0, 0]
    (by unfold tripletId; simp)
    (by
      intro h
      have h0 := congrFun h 0
      norm_num at h0)

/-- C9 counterexample: at the zero position the `Triplet` guard passes
(`0 ≥ -1e-11` componentwise) and the normalisation divides by a zero norm,
so the claim that no division by a zero norm occurs is false at `p = 0`. -/
theorem C9_counterexample :
    normVec (tripletId.pv 0) = 0 ∧ (tripletId.handle 0).isSome = true := by
  constructor
  · rw [tripletId.pv_zero]
    unfold normVec
    simp
  · refine (tripletId.handle_isSome_iff 0).mpr ?_
    intro i
    rw [tripletId.pv_zero]
    norm_num

/-! ## Region dispatch: `RegionHandler.handle_remap` and `PointSourcePanner` -/

theorem foldl_update_of_not_mem {m : ℕ} {β : Type*} [DecidableEq β] (oc : Fin m → β)
    (pv : Fin m → ℝ) (l : List (Fin m)) (init : β → ℝ) (j : β) (h : ∀ k ∈ l, oc k ≠ j) :
    (l.foldl (fun acc k => Function.update acc (oc k) (pv k)) init) j = init j := by
  induction l generalizing init with
  | nil => rfl
  | cons a t ih =>
    rw [List.foldl_cons, ih _ (fun k hk => h k (List.mem_cons_of_mem a hk))]
    exact Function.update_noteq (Ne.symm (h a (List.mem_cons_self a t))) _ _

theorem foldl_update_of_mem {m : ℕ} {β : Type*} [DecidableEq β] (oc : Fin m → β)
    (pv : Fin m → ℝ) (hinj : Function.Injective oc) (l : List (Fin m)) (init : β → ℝ)
    (k : Fin m) (hk : k ∈ l) :
    (l.foldl (fun acc k => Function.update acc (oc k) (pv k)) init) (oc k) = pv k := by
  induction l generalizing init with
  | nil => cases hk
  | cons a t ih =>
    rw [List.foldl_cons]
    by_cases hkt : k ∈ t
    · exact ih _ hkt
    · have hka : k = a := by
        rcases List.mem_cons.1 hk with h | h
        exacts [h, absurd h hkt]
      subst hka
      have hne : ∀ k' ∈ t, oc k' ≠ oc k := by
        intro k' hk' heq
        rw [hinj heq] at hk'
        exact hkt hk'
      rw [foldl_update_of_not_mem _ _ _ _ _ hne]
      exact Function.update_same _ _ _

/-- The value written by `out[output_channels] = pv` at the channel of the
`k`-th gain (for duplicate-free channel lists). -/
theorem remap_oc {m : ℕ} {β : Type*} [DecidableEq β] (oc : Fin m → β) (pv : Fin m → ℝ)
    (hinj : Function.Injective oc) (k : Fin m) :
    remap oc pv (oc k) = pv k :=
  foldl_update_of_mem oc pv hinj _ _ k (List.mem_finRange k)

/-- Channels not assigned by `out[output_channels] = pv` stay zero. -/
theorem remap_not_mem {m : ℕ} {β : Type*} [DecidableEq β] (oc : Fin m → β)
    (pv : Fin m → ℝ) (j : β) (h : ∀ k, oc k ≠ j) :
    remap oc pv j = 0 :=
  foldl_update_of_not_mem oc pv _ _ j (fun k _ => h k)

/-- A region handler as dispatched by `PointSourcePanner`: the channel
numbers `output_channels` and a `handle` function returning a partial gain
vector of matching length. -/
structure Region where
  m : ℕ
  output_channels : Fin m → ℕ
  handle : (Fin 3 → ℝ) → Option (Fin m → ℝ)

/-- `RegionHandler.handle_remap`: place the partial gains into a zero buffer
at `output_channels`. -/
noncomputable def Region.handle_remap (r : Region) (position : Fin 3 → ℝ) :
    Option (ℕ → ℝ) :=
  (r.handle position).map (remap r.output_channels)

/-- `PointSourcePanner`: the stored region list and channel count. -/
structure PointSourcePanner where
  regions : List Region
  num_channels : ℕ

/-- `PointSourcePanner.handle`: first region whose `handle_remap` succeeds. -/
noncomputable def PointSourcePanner.handle (psp : PointSourcePanner)
    (position : Fin 3 → ℝ) : Option (ℕ → ℝ) :=
  psp.regions.findSome? (fun r => r.handle_remap position)

theorem findSome?_append_first {α β : Type _} (f : α → Option β)
    (pre post : List α) (a : α) (b : β)
    (hpre : ∀ x ∈ pre, f x = none) (ha : f a = some b) :
    (pre ++ a :: post).findSome? f = some b := by
  induction pre with
  | nil =>
    rw [List.nil_append, List.findSome?_cons, ha]
  | cons x t ih =>
    rw [List.cons_append, List.findSome?_cons, hpre x (List.mem_cons_self x t)]
    exact ih (fun y hy => hpre y (List.mem_cons_of_mem x hy))

/-- C5: `PointSourcePanner.handle` returns `none` iff every region fails;
otherwise it returns the partial gains of the first succeeding region in
stored order, written at that region's `output_channels` inside an
otherwise all-zero output vector. -/
theorem C5_psp_dispatch (psp : PointSourcePanner) (p : Fin 3 → ℝ) :
    (psp.handle p = none ↔ ∀ r ∈ psp.regions, r.handle p = none)
    ∧ (∀ pre r post pv, psp.regions = pre ++ r :: post →
        (∀ r' ∈ pre, r'.handle p = none) → r.handle p = some pv →
        psp.handle p = some (remap r.output_channels pv)
        ∧ (∀ j, (∀ k, r.output_channels k ≠ j) → remap r.output_channels pv j = 0)
        ∧ (Function.Injective r.output_channels →
            ∀ k, remap r.output_channels pv (r.output_channels k) = pv k)) := by
  constructor
  · rw [PointSourcePanner.handle, List.findSome?_eq_none_iff]
    constructor
    · intro h r hr
      exact Option.map_eq_none'.1 (h r hr)
    · intro h r hr
      rw [Region.handle_remap, h r hr]
      rfl
  · intro pre r post pv hsplit hpre hr
    refine ⟨?_, fun j hj => remap_not_mem _ _ j hj,
      fun hinj k => remap_oc _ _ hinj k⟩
    rw [PointSourcePanner.handle, hsplit]
    refine findSome?_append_first _ pre post r _ ?_ ?_
    · intro x hx
      rw [Region.handle_remap, hpre x hx]
      rfl
    · rw [Region.handle_remap, hr]
      rfl

/-- A one-region example panner used by the dispatch witnesses. -/
noncomputable def regionW : Region :=
  { m := 1, output_channels := ![0], handle := fun _ => some ![5] }

noncomputable def pspW : PointSourcePanner := { regions := [regionW], num_channels := 1 }

/-- Witness for C5: the one-region panner dispatches to its region. -/
theorem C5_psp_dispatch_witness :
    pspW.handle ![1, 0, 0] = some (remap (![0] : Fin 1 → ℕ) ![5]) :=
  ((C5_psp_dispatch pspW ![1, 0, 0]).2 [] regionW [] ![5] rfl
    (by intro r' hr'; cases hr') rfl).1

/-! ## StereoPanDownmix and PointSourcePannerDownmix -/

/-- `pv /= np.linalg.norm(pv)`. -/
noncomputable def normalise {n : ℕ} (v : Fin n → ℝ) : Fin n → ℝ :=
  fun i => v i / normVec v

theorem normVec_normalise {n : ℕ} (v : Fin n → ℝ) (h : v ≠ 0) :
    normVec (normalise v) = 1 :=
  normVec_div_self v h

/-- The modified BS.775 downmix matrix of `StereoPanDownmix.handle`; columns
are ordered `[M+030, M-030, M+000, M+110, M-110]`. -/
noncomputable def stereoDownmix : Matrix (Fin 2) (Fin 5) ℝ :=
  Matrix.of ![![1, 0, Real.sqrt 3 / 3, Real.sqrt (1/2), 0],
              ![0, 1, Real.sqrt 3 / 3, 0, Real.sqrt (1/2)]]

/-- The front/back balance attenuation `0.5 ** (0.5 * back / (front + back))`
applied at the end of `StereoPanDownmix.handle`. -/
noncomputable def stereoFactor (pv : Fin 5 → ℝ) : ℝ :=
  (1/2 : ℝ) ^ ((1/2 : ℝ) * max (pv 3) (pv 4) / (max (max (pv 0) (pv 1)) (pv 2) + max (pv 3) (pv 4)))

/-- `StereoPanDownmix.handle`, parameterised by the inner `0+5+0` panner
(`self.psp` is built by `configure` on the 0+5+0 layout; its construction
goes through the external convex hull, so it is kept as a parameter).  The
code has no failure branch of its own: it downmixes, normalises and
attenuates the inner result unconditionally.  Were the inner panner to
return `None`, `np.dot(downmix, None)` would raise; that branch is the
`none` case of the match. -/
noncomputable def StereoPanDownmix.handle (psp : (Fin 3 → ℝ) → Option (Fin 5 → ℝ))
    (position : Fin 3 → ℝ) : Option (Fin 2 → ℝ) :=
  match psp position with
  | none => none
  | some pv => some (fun i => normalise (stereoDownmix.mulVec pv) i * stereoFactor pv)

/-- `PointSourcePannerDownmix`: inner panner plus downmix matrix.  The inner
panner's outputs are read as a vector of length `innerN`. -/
structure PointSourcePannerDownmix (nch innerN : ℕ) where
  psp : PointSourcePanner
  downmix : Matrix (Fin nch) (Fin innerN) ℝ

/-- `PointSourcePannerDownmix.handle`: apply the downmix to a successful
inner result and renormalise. -/
noncomputable def PointSourcePannerDownmix.handle {nch innerN : ℕ}
    (d : PointSourcePannerDownmix nch innerN) (position : Fin 3 → ℝ) :
    Option (Fin nch → ℝ) :=
  (d.psp.handle position).map
    (fun pv => normalise (d.downmix.mulVec (fun j => pv (j : ℕ))))

/-- C1 (amended): a `PointSourcePannerDownmix` returns gains of L2 norm
exactly 1 whenever the downmixed inner gains are nonzero, but the stereo
(`0+2+0`) handler attenuates after normalising, so its output norm equals
the front/back factor `0.5 ** (0.5·b/(f+b))` rather than 1; the factor is
1 only when the rear gains contribute nothing. -/
theorem C1_output_norm {nch innerN : ℕ}
    (d : PointSourcePannerDownmix nch innerN) (p : Fin 3 → ℝ)
    (pv : ℕ → ℝ) (hpv : d.psp.handle p = some pv)
    (hnz : d.downmix.mulVec (fun j => pv (j : ℕ)) ≠ 0)
    (psp5 : (Fin 3 → ℝ) → Option (Fin 5 → ℝ)) (q : Fin 3 → ℝ) (v : Fin 5 → ℝ)
    (hv : psp5 q = some v) (hnz5 : stereoDownmix.mulVec v ≠ 0) :
    (d.handle p = some (normalise (d.downmix.mulVec (fun j => pv (j : ℕ))))
      ∧ normVec (normalise (d.downmix.mulVec (fun j => pv (j : ℕ)))) = 1)
    ∧ (StereoPanDownmix.handle psp5 q
        = some (fun i => normalise (stereoDownmix.mulVec v) i * stereoFactor v)
      ∧ normVec (fun i => normalise (stereoDownmix.mulVec v) i * stereoFactor v)
        = stereoFactor v) := by
  refine ⟨⟨?_, normVec_normalise _ hnz⟩, ⟨?_, ?_⟩⟩
  · rw [PointSourcePannerDownmix.handle, hpv]
    rfl
  · rw [StereoPanDownmix.handle, hv]
  · have hcomm : (fun i => normalise (stereoDownmix.mulVec v) i * stereoFactor v)
        = fun i => stereoFactor v * normalise (stereoDownmix.mulVec v) i := by
      funext i
      ring
    have hposf : 0 < stereoFactor v := Real.rpow_pos_of_pos (by norm_num) _
    rw [hcomm, normVec_smul, normVec_normalise _ hnz5, abs_of_pos hposf, mul_one]

/-- Inner panner result and downmix used by the C1 witness. -/
noncomputable def dW : PointSourcePannerDownmix 1 1 :=
  { psp := pspW, downmix := Matrix.of ![![1]] }

theorem pspW_handle (p : Fin 3 → ℝ) :
    pspW.handle p = some (remap (![0] : Fin 1 → ℕ) ![5]) :=
  ((C5_psp_dispatch pspW p).2 [] regionW [] ![5] rfl
    (by intro r' hr'; cases hr') rfl).1

/-- Witness for C1: concrete instances of both conclusions. -/
theorem C1_output_norm_witness :
    normVec (normalise ((Matrix.of ![![1]] : Matrix (Fin 1) (Fin 1) ℝ).mulVec
      (fun j => remap (![0] : Fin 1 → ℕ) ![5] (j : ℕ)))) = 1 := by
  have hoc : Function.Injective (![0] : Fin 1 → ℕ) := fun a b _ => Subsingleton.elim a b
  have hval : remap (![0] : Fin 1 → ℕ) ![5] 0 = 5 := remap_oc _ _ hoc 0
  have hnz : (Matrix.of ![![1]] : Matrix (Fin 1) (Fin 1) ℝ).mulVec
      (fun j => remap (![0] : Fin 1 → ℕ) ![5] (j : ℕ)) ≠ 0 := by
    intro h
    have h0 := congrFun h 0
    rw [Matrix.mulVec, Matrix.dotProduct] at h0
    simp only [Fin.sum_univ_one, Matrix.of_apply, Pi.zero_apply] at h0
    rw [show ((0 : Fin 1) : ℕ) = 0 from rfl, hval] at h0
    norm_num [Matrix.cons_val_zero] at h0
  have h := C1_output_norm dW ![1, 0, 0] (remap (![0] : Fin 1 → ℕ) ![5])
    (pspW_handle _) hnz (fun _ => some ![1, 0, 0, 0, 0]) ![1, 0, 0] ![1, 0, 0, 0, 0]
    rfl ?hnz5
  · exact h.1.2
  · intro hz
    have h0 := congrFun hz 0
    rw [Matrix.mulVec, Matrix.dotProduct] at h0
    rw [Fin.sum_univ_five] at h0
    simp only [stereoDownmix, Matrix.of_apply, Pi.zero_apply] at h0
    norm_num [Matrix.cons_val_zero, Matrix.cons_val_one] at h0

/-- The inner panner result used in the C1 counterexample: a pure `M+110`
(rear-left) gain vector, which the inner `0+5+0` panner produces when the
source points straight at that loudspeaker. -/
noncomputable def rearPv : Fin 5 → ℝ := ![0, 0, 0, 1, 0]

theorem stereoDownmix_mulVec_rearPv :
    stereoDownmix.mulVec rearPv = ![Real.sqrt (1/2), 0] := by
  funext i
  rw [Matrix.mulVec, Matrix.dotProduct, Fin.sum_univ_five]
  fin_cases i <;>
    simp [stereoDownmix, rearPv]

theorem normVec_rear : normVec (![Real.sqrt (1/2), 0] : Fin 2 → ℝ) = Real.sqrt (1/2) := by
  unfold normVec
  rw [Fin.sum_univ_two]
  have h : ((![Real.sqrt (1/2), 0] : Fin 2 → ℝ) 0) ^ 2
      + ((![Real.sqrt (1/2), 0] : Fin 2 → ℝ) 1) ^ 2 = 1/2 := by
    simp only [Matrix.cons_val_zero, Matrix.cons_val_one, Matrix.head_cons]
    rw [Real.sq_sqrt (by norm_num)]
    norm_num
  rw [h]

theorem sqrt_half_lt : Real.sqrt (1/2) < 0.71 :=
  (Real.sqrt_lt' (by norm_num)).2 (by norm_num)

/-- C1 counterexample: with the inner `0+5+0` panner returning the pure
`M+110` gains (the source points at the rear-left loudspeaker), the stereo
handler's output is `(√½, 0)`, whose L2 norm `√½ ≈ 0.707` is not within
`1e-9` of 1. -/
theorem C1_counterexample :
    StereoPanDownmix.handle (fun _ => some rearPv) ![-1, 0, 0]
      = some ![Real.sqrt (1/2), 0]
    ∧ ¬ |normVec (![Real.sqrt (1/2), 0] : Fin 2 → ℝ) - 1| ≤ 1e-9 := by
  constructor
  · show some (fun i => normalise (stereoDownmix.mulVec rearPv) i * stereoFactor rearPv)
      = some ![Real.sqrt (1/2), 0]
    congr 1
    funext i
    have hfac : stereoFactor rearPv = Real.sqrt (1/2) := by
      unfold stereoFactor rearPv
      have harg : (1/2 : ℝ) * max ((![0,0,0,1,0] : Fin 5 → ℝ) 3) ((![0,0,0,1,0] : Fin 5 → ℝ) 4)
          / (max (max ((![0,0,0,1,0] : Fin 5 → ℝ) 0) ((![0,0,0,1,0] : Fin 5 → ℝ) 1)) ((![0,0,0,1,0] : Fin 5 → ℝ) 2)
             + max ((![0,0,0,1,0] : Fin 5 → ℝ) 3) ((![0,0,0,1,0] : Fin 5 → ℝ) 4)) = 1/2 := by
        norm_num
      rw [harg, ← Real.sqrt_eq_rpow]
    rw [hfac]
    unfold normalise
    rw [stereoDownmix_mulVec_rearPv, normVec_rear]
    have hnz : Real.sqrt (1/2) ≠ 0 := by positivity
    rw [div_mul_cancel₀ _ hnz]
  · rw [normVec_rear]
    intro habs
    have h1 := (abs_le.1 habs).1
    have := sqrt_half_lt
    linarith

/-- `_configure_stereo`: a `PointSourcePanner` whose single region is the
stereo downmix handler, with output channels the indices of `M+030` and
`M-030` in the layout and channel count as computed by
`PointSourcePanner.__attrs_post_init__`. -/
noncomputable def configure_stereo (left right : ℕ)
    (psp5 : (Fin 3 → ℝ) → Option (Fin 5 → ℝ)) : PointSourcePanner :=
  { regions := [{ m := 2
                  output_channels := ![left, right]
                  handle := StereoPanDownmix.handle psp5 }]
    num_channels := max left right + 1 }

/-- C10: the `0+2+0` panner never fails on its own: whenever the inner
`0+5+0` panner returns gains, `StereoPanDownmix.handle` succeeds (it has no
failure branch), and the dispatching `PointSourcePanner` places the
2-component result at the left and right output channels, all other
channels being zero. -/
theorem C10_stereo_never_none (left right : ℕ) (hlr : left ≠ right)
    (psp5 : (Fin 3 → ℝ) → Option (Fin 5 → ℝ)) (p : Fin 3 → ℝ)
    (pv : Fin 5 → ℝ) (hpv : psp5 p = some pv) :
    ((configure_stereo left right psp5).handle p).isSome = true
    ∧ (∀ out, (configure_stereo left right psp5).handle p = some out →
        out left = normalise (stereoDownmix.mulVec pv) 0 * stereoFactor pv
        ∧ out right = normalise (stereoDownmix.mulVec pv) 1 * stereoFactor pv
        ∧ ∀ j, j ≠ left → j ≠ right → out j = 0) := by
  have hg : StereoPanDownmix.handle psp5 p
      = some (fun i => normalise (stereoDownmix.mulVec pv) i * stereoFactor pv) := by
    rw [StereoPanDownmix.handle, hpv]
  have hinj : Function.Injective (![left, right] : Fin 2 → ℕ) := by
    intro a b hab
    fin_cases a <;> fin_cases b <;> simp_all
  have hhandle : (configure_stereo left right psp5).handle p
      = some (remap (![left, right] : Fin 2 → ℕ)
          (fun i => normalise (stereoDownmix.mulVec pv) i * stereoFactor pv)) := by
    rw [PointSourcePanner.handle, configure_stereo]
    rw [List.findSome?_cons]
    simp only [Region.handle_remap, hg, Option.map_some']
  constructor
  · rw [hhandle]
    rfl
  · intro out hout
    rw [hhandle] at hout
    have hout' := Option.some_inj.1 hout
    subst hout'
    refine ⟨?_, ?_, ?_⟩
    · have h0 := remap_oc (![left, right] : Fin 2 → ℕ)
        (fun i => normalise (stereoDownmix.mulVec pv) i * stereoFactor pv) hinj 0
      simpa using h0
    · have h1 := remap_oc (![left, right] : Fin 2 → ℕ)
        (fun i => normalise (stereoDownmix.mulVec pv) i * stereoFactor pv) hinj 1
      simpa using h1
    · intro j hjl hjr
      refine remap_not_mem _ _ j ?_
      intro k
      fin_cases k
      · simpa using Ne.symm hjl
      · simpa using Ne.symm hjr

/-- Witness for C10: a concrete stereo configuration handles a position. -/
theorem C10_stereo_never_none_witness :
    ((configure_stereo 0 1 (fun _ => some rearPv)).handle ![-1, 0, 0]).isSome = true :=
  (C10_stereo_never_none 0 1 (by norm_num) (fun _ => some rearPv) ![-1, 0, 0]
    rearPv rfl).1

/-! ## VirtualNgon -/

/-- The stored attributes of a `VirtualNgon` region handler over `n` real
loudspeakers plus one central virtual loudspeaker. -/
structure VirtualNgon (n : ℕ) where
  output_channels : Fin n → ℕ
  positions : Fin n → Fin 3 → ℝ
  centre_position : Fin 3 → ℝ
  centre_downmix : Fin n → ℝ

/-- The sub-triplet built in `VirtualNgon.__attrs_post_init__` between the
cyclically ordered speakers `order[i]`, `order[(i+1) % n]` and the virtual
centre.  Its output channels index a working buffer of length `n + 1`, the
virtual centre occupying slot `n`.  `ord` is the cyclic vertex order
computed by `ngon_vertex_order` (in `geom.py`, outside this file), kept as
a parameter. -/
noncomputable def VirtualNgon.tripletAt {n : ℕ} [NeZero n] (vn : VirtualNgon n)
    (ord : Fin n → Fin n) (i : Fin n) : Triplet :=
  { output_channels := ![(ord i : ℕ), (ord (i + 1) : ℕ), n]
    positions := Matrix.of
      ![vn.positions (ord i), vn.positions (ord (i + 1)), vn.centre_position] }

/-- Fold the virtual-centre gain back into the real loudspeakers:
`pv[:-1] += pv[-1] * centre_downmix` followed by dropping the last slot of
the length-`n+1` buffer `v`. -/
noncomputable def VirtualNgon.fold {n : ℕ} (vn : VirtualNgon n) (v : ℕ → ℝ) :
    Fin n → ℝ :=
  fun k => v (k : ℕ) + v n * vn.centre_downmix k

/-- The loop body of `VirtualNgon.handle` over a list of sub-triplet
indices: on the first sub-triplet success, remap into the `n+1` buffer,
fold the virtual channel back and renormalise. -/
noncomputable def VirtualNgon.handleAux {n : ℕ} [NeZero n] (vn : VirtualNgon n)
    (ord : Fin n → Fin n) (position : Fin 3 → ℝ) :
    List (Fin n) → Option (Fin n → ℝ)
  | [] => none
  | i :: rest =>
    match (vn.tripletAt ord i).handle position with
    | some g =>
        some (normalise (vn.fold (remap (vn.tripletAt ord i).output_channels g)))
    | none => vn.handleAux ord position rest

/-- `VirtualNgon.handle`: try the `n` sub-triplets in index order. -/
noncomputable def VirtualNgon.handle {n : ℕ} [NeZero n] (vn : VirtualNgon n)
    (ord : Fin n → Fin n) (position : Fin 3 → ℝ) : Option (Fin n → ℝ) :=
  vn.handleAux ord position (List.finRange n)

theorem VirtualNgon.handleAux_eq_none_iff {n : ℕ} [NeZero n] (vn : VirtualNgon n)
    (ord : Fin n → Fin n) (p : Fin 3 → ℝ) (l : List (Fin n)) :
    vn.handleAux ord p l = none ↔ ∀ i ∈ l, (vn.tripletAt ord i).handle p = none := by
  induction l with
  | nil => simp [VirtualNgon.handleAux]
  | cons a t ih =>
    rw [VirtualNgon.handleAux]
    cases h : (vn.tripletAt ord a).handle p with
    | none =>
      simp only [h]
      rw [ih]
      constructor
      · intro hall i hi
        rcases List.mem_cons.1 hi with rfl | hit
        exacts [h, hall i hit]
      · intro hall i hi
        exact hall i (List.mem_cons_of_mem a hi)
    | some g =>
      simp only [h]
      constructor
      · intro hcontra; cases hcontra
      · intro hall
        exact absurd (hall a (List.mem_cons_self a t)) (by rw [h]; simp)

theorem VirtualNgon.handleAux_first {n : ℕ} [NeZero n] (vn : VirtualNgon n)
    (ord : Fin n → Fin n) (p : Fin 3 → ℝ) (pre post : List (Fin n)) (i : Fin n)
    (g : Fin 3 → ℝ) (hpre : ∀ i' ∈ pre, (vn.tripletAt ord i').handle p = none)
    (hi : (vn.tripletAt ord i).handle p = some g) :
    vn.handleAux ord p (pre ++ i :: post)
      = some (normalise (vn.fold (remap (vn.tripletAt ord i).output_channels g))) := by
  induction pre with
  | nil =>
    rw [List.nil_append, VirtualNgon.handleAux, hi]
  | cons a t ih =>
    rw [List.cons_append, VirtualNgon.handleAux, hpre a (List.mem_cons_self a t)]
    exact ih (fun y hy => hpre y (List.mem_cons_of_mem a hy))

/-- C4: `VirtualNgon.handle` tries the `n` sub-triplets — each formed from a
consecutive pair of cyclically ordered real speakers plus the virtual
centre, with output slots `[order i, order (i+1), n]` in the length-`n+1`
working buffer — in order; on the first success with buffer `v` it returns
the L2-normalisation of the `n`-vector `k ↦ v k + v n * centre_downmix k`,
and it returns `none` iff every sub-triplet fails. -/
theorem C4_virtual_ngon {n : ℕ} [NeZero n] (vn : VirtualNgon n)
    (ord : Fin n → Fin n) (p : Fin 3 → ℝ) :
    (vn.handle ord p = none ↔ ∀ i, (vn.tripletAt ord i).handle p = none)
    ∧ (∀ pre i post g, List.finRange n = pre ++ i :: post →
        (∀ i' ∈ pre, (vn.tripletAt ord i').handle p = none) →
        (vn.tripletAt ord i).handle p = some g →
        vn.handle ord p
          = some (normalise (vn.fold (remap (vn.tripletAt ord i).output_channels g))))
    ∧ (∀ i, (vn.tripletAt ord i).output_channels
          = ![(ord i : ℕ), (ord (i + 1) : ℕ), n]
        ∧ (vn.tripletAt ord i).positions
          = Matrix.of ![vn.positions (ord i), vn.positions (ord (i + 1)),
              vn.centre_position])
    ∧ (∀ v : ℕ → ℝ, ∀ k : Fin n,
        vn.fold v k = v (k : ℕ) + v n * vn.centre_downmix k) := by
  refine ⟨?_, ?_, fun i => ⟨rfl, rfl⟩, fun v k => rfl⟩
  · rw [VirtualNgon.handle, VirtualNgon.handleAux_eq_none_iff]
    constructor
    · intro h i
      exact h i (List.mem_finRange i)
    · intro h i _
      exact h i
  · intro pre i post g hsplit hpre hi
    rw [VirtualNgon.handle, hsplit]
    exact VirtualNgon.handleAux_first vn ord p pre post i g hpre hi

/-- A concrete 2-speaker virtual ngon whose first sub-triplet has the
identity matrix as positions. -/
noncomputable def vnW : VirtualNgon 2 :=
  { output_channels := ![0, 1]
    positions := ![![1, 0, 0], ![0, 1, 0]]
    centre_position := ![0, 0, 1]
    centre_downmix := ![1/2, 1/2] }

theorem vnW_triplet0_positions : (vnW.tripletAt id 0).positions = 1 := by
  funext i j
  fin_cases i <;> fin_cases j <;>
    simp [VirtualNgon.tripletAt, vnW, Matrix.one_apply, Matrix.vecHead, Matrix.vecTail]

theorem vnW_triplet0_pv (p : Fin 3 → ℝ) : (vnW.tripletAt id 0).pv p = p := by
  unfold Triplet.pv Triplet.basis
  rw [vnW_triplet0_positions, inv_one, Matrix.vecMul_one]

/-- Witness for C4: the concrete 2-speaker ngon handles `(1, 1, 1)` through
its first sub-triplet. -/
theorem C4_virtual_ngon_witness : (vnW.handle id ![1, 1, 1]).isSome = true := by
  have hsome : (vnW.tripletAt id 0).handle ![1, 1, 1]
      = some (fun i => min 1 (max 0
          ((![1, 1, 1] : Fin 3 → ℝ) i / normVec (![1, 1, 1] : Fin 3 → ℝ)))) := by
    rw [(vnW.tripletAt id 0).handle_eq_some _
      (by intro i; rw [vnW_triplet0_pv]; fin_cases i <;> norm_num)]
    congr 1
    funext i
    rw [vnW_triplet0_pv]
  have h := (C4_virtual_ngon vnW id ![1, 1, 1]).2.1 [] 0 [1]
    (fun i => min 1 (max 0
      ((![1, 1, 1] : Fin 3 → ℝ) i / normVec (![1, 1, 1] : Fin 3 → ℝ))))
    (by decide) (by intro i' hi'; cases hi') hsome
  rw [h]
  rfl

/-! ## QuadRegion -/

/-- `np.cross` for 3-vectors. -/
noncomputable def cross3 (a b : Fin 3 → ℝ) : Fin 3 → ℝ :=
  ![a 1 * b 2 - a 2 * b 1, a 2 * b 0 - a 0 * b 2, a 0 * b 1 - a 1 * b 0]

/-- dot product of 3-vectors. -/
noncomputable def dot3 (a b : Fin 3 → ℝ) : ℝ := ∑ i, a i * b i

/-- The vector-valued polynomial coefficients `poly` built in
`QuadRegion.pan_axis` from the four ordered speaker positions
(highest degree first). -/
noncomputable def panAxisPoly (a b c d : Fin 3 → ℝ) : Fin 3 → (Fin 3 → ℝ) :=
  ![cross3 (b - a) (c - d), cross3 a (c - d) + cross3 (b - a) d, cross3 a d]

/-- `np.dot(poly, position)`: the three scalar coefficients of the per-axis
quadratic, highest degree first. -/
noncomputable def panAxisCoeffs (a b c d position : Fin 3 → ℝ) : Fin 3 → ℝ :=
  fun k => dot3 (panAxisPoly a b c d k) position

/-- Evaluation of the quadratic with highest-first coefficients `c` at a
complex point; `np.roots([c0, c1, c2])` returns its roots. -/
noncomputable def quadEval (c : Fin 3 → ℝ) (z : ℂ) : ℂ :=
  (c 0 : ℂ) * z ^ 2 + (c 1 : ℂ) * z + (c 2 : ℂ)

/-- The root-acceptance loop of `QuadRegion.pan_axis.handle`: the first root
with imaginary magnitude below `1e-10` and real part strictly between
`-1e-10` and `1 + 1e-10`, clipped to `[0, 1]`. -/
noncomputable def pickRoot : List ℂ → Option ℝ
  | [] => none
  | z :: zs =>
    if |z.im| < 1e-10 ∧ -1e-10 < z.re ∧ z.re < 1 + 1e-10
    then some (min 1 (max 0 z.re))
    else pickRoot zs

theorem pickRoot_some (l : List ℂ) (x : ℝ) (h : pickRoot l = some x) :
    ∃ z ∈ l, (|z.im| < 1e-10 ∧ -1e-10 < z.re ∧ z.re < 1 + 1e-10)
      ∧ x = min 1 (max 0 z.re) := by
  induction l with
  | nil => cases h
  | cons a t ih =>
    rw [pickRoot] at h
    split_ifs at h with hc
    · exact ⟨a, List.mem_cons_self a t, hc, (Option.some_inj.1 h).symm⟩
    · rcases ih h with ⟨z, hz, hcond, hx⟩
      exact ⟨z, List.mem_cons_of_mem a hz, hcond, hx⟩

theorem pickRoot_none_iff (l : List ℂ) :
    pickRoot l = none
      ↔ ∀ z ∈ l, ¬ (|z.im| < 1e-10 ∧ -1e-10 < z.re ∧ z.re < 1 + 1e-10) := by
  induction l with
  | nil => simp [pickRoot]
  | cons a t ih =>
    rw [pickRoot]
    split_ifs with hc
    · constructor
      · intro h; cases h
      · intro hall
        exact absurd hc (hall a (List.mem_cons_self a t))
    · rw [ih]
      constructor
      · intro hall z hz
        rcases List.mem_cons.1 hz with rfl | hzt
        exacts [hc, hall z hzt]
      · intro hall z hz
        exact hall z (List.mem_cons_of_mem a hz)

/-- `QuadRegion.pan_axis`, parameterised by `np.roots` (numpy, kept abstract
as a function from the three highest-first coefficients to the list of
roots it returns, in numpy's order). -/
noncomputable def pan_axis (np_roots : (Fin 3 → ℝ) → List ℂ)
    (spk : Fin 4 → Fin 3 → ℝ) (position : Fin 3 → ℝ) : Option ℝ :=
  pickRoot (np_roots (panAxisCoeffs (spk 0) (spk 1) (spk 2) (spk 3) position))

/-- The stored attributes of a `QuadRegion` region handler. -/
structure QuadRegion where
  output_channels : Fin 4 → ℕ
  positions : Fin 4 → Fin 3 → ℝ

/-- The cyclically ordered speaker positions `self.positions[self.order]`;
the order itself comes from `ngon_vertex_order` (in `geom.py`, outside this
file) and is kept as a parameter. -/
noncomputable def QuadRegion.ordered (q : QuadRegion) (ord : Fin 4 → Fin 4) :
    Fin 4 → Fin 3 → ℝ :=
  fun k => q.positions (ord k)

/-- The vertex rotation `[1, 2, 3, 0]` used for the second pan axis. -/
def rot4 : Fin 4 → Fin 4 := ![1, 2, 3, 0]

/-- `self.pan_x`. -/
noncomputable def QuadRegion.panX (q : QuadRegion) (ord : Fin 4 → Fin 4)
    (np_roots : (Fin 3 → ℝ) → List ℂ) (position : Fin 3 → ℝ) : Option ℝ :=
  pan_axis np_roots (q.ordered ord) position

/-- `self.pan_y`, built from the rotated vertex order `[1, 2, 3, 0]`. -/
noncomputable def QuadRegion.panY (q : QuadRegion) (ord : Fin 4 → Fin 4)
    (np_roots : (Fin 3 → ℝ) → List ℂ) (position : Fin 3 → ℝ) : Option ℝ :=
  pan_axis np_roots (fun k => q.ordered ord (rot4 k)) position

/-- `pvs[self.order] = [(1-x)(1-y), x(1-y), xy, (1-x)y]` inside a zero
4-vector. -/
noncomputable def quadGains (ord : Fin 4 → Fin 4) (x y : ℝ) : Fin 4 → ℝ :=
  remap ord ![(1-x) * (1-y), x * (1-y), x * y, (1-x) * y]

/-- `QuadRegion.handle`: find both pan parameters, reject if either axis
fails or the reconstruction `pvs·positions·position` is not positive, else
return the L2-normalised gains. -/
noncomputable def QuadRegion.handle (q : QuadRegion) (ord : Fin 4 → Fin 4)
    (np_roots : (Fin 3 → ℝ) → List ℂ) (position : Fin 3 → ℝ) :
    Option (Fin 4 → ℝ) :=
  match q.panX ord np_roots position, q.panY ord np_roots position with
  | some x, some y =>
    if dot3 (Matrix.vecMul (quadGains ord x y) (Matrix.of q.positions)) position ≤ 0
    then none
    else some (normalise (quadGains ord x y))
  | _, _ => none

/-- C3: the pan parameters are clipped accepted roots of the per-axis scalar
quadratic with coefficients `(b−a)×(c−d)`, `a×(c−d)+(b−a)×d`, `a×d` dotted
with the position (for the second axis on the `[1,2,3,0]`-rotated ordered
vertices); `handle` returns `none` iff an axis yields no accepted root or
the reconstruction satisfies `g·positions·p ≤ 0`, and otherwise the
L2-normalised bilinear gains placed at the ordered vertex indices. -/
theorem C3_quad_region (q : QuadRegion) (ord : Fin 4 → Fin 4)
    (np_roots : (Fin 3 → ℝ) → List ℂ)
    (hroots : ∀ c z, z ∈ np_roots c → quadEval c z = 0) (p : Fin 3 → ℝ) :
    (∀ a b c d : Fin 3 → ℝ, panAxisPoly a b c d
        = ![cross3 (b - a) (c - d), cross3 a (c - d) + cross3 (b - a) d, cross3 a d])
    ∧ (∀ x, q.panX ord np_roots p = some x →
        ∃ z ∈ np_roots (panAxisCoeffs (q.ordered ord 0) (q.ordered ord 1)
            (q.ordered ord 2) (q.ordered ord 3) p),
          quadEval (panAxisCoeffs (q.ordered ord 0) (q.ordered ord 1)
            (q.ordered ord 2) (q.ordered ord 3) p) z = 0
          ∧ (|z.im| < 1e-10 ∧ -1e-10 < z.re ∧ z.re < 1 + 1e-10)
          ∧ x = min 1 (max 0 z.re))
    ∧ (∀ y, q.panY ord np_roots p = some y →
        ∃ z ∈ np_roots (panAxisCoeffs (q.ordered ord (rot4 0)) (q.ordered ord (rot4 1))
            (q.ordered ord (rot4 2)) (q.ordered ord (rot4 3)) p),
          quadEval (panAxisCoeffs (q.ordered ord (rot4 0)) (q.ordered ord (rot4 1))
            (q.ordered ord (rot4 2)) (q.ordered ord (rot4 3)) p) z = 0
          ∧ (|z.im| < 1e-10 ∧ -1e-10 < z.re ∧ z.re < 1 + 1e-10)
          ∧ y = min 1 (max 0 z.re))
    ∧ (q.handle ord np_roots p = none ↔
        q.panX ord np_roots p = none ∨ q.panY ord np_roots p = none
        ∨ (∃ x y, q.panX ord np_roots p = some x ∧ q.panY ord np_roots p = some y
            ∧ dot3 (Matrix.vecMul (quadGains ord x y) (Matrix.of q.positions)) p ≤ 0))
    ∧ (∀ x y, q.panX ord np_roots p = some x → q.panY ord np_roots p = some y →
        ¬ dot3 (Matrix.vecMul (quadGains ord x y) (Matrix.of q.positions)) p ≤ 0 →
        q.handle ord np_roots p = some (normalise (quadGains ord x y)))
    ∧ (Function.Injective ord → ∀ x y k, quadGains ord x y (ord k)
        = ![(1-x) * (1-y), x * (1-y), x * y, (1-x) * y] k) := by
  refine ⟨fun a b c d => rfl, ?_, ?_, ?_, ?_, ?_⟩
  · intro x hx
    rcases pickRoot_some _ x hx with ⟨z, hz, hcond, hval⟩
    exact ⟨z, hz, hroots _ z hz, hcond, hval⟩
  · intro y hy
    rcases pickRoot_some _ y hy with ⟨z, hz, hcond, hval⟩
    exact ⟨z, hz, hroots _ z hz, hcond, hval⟩
  · rw [QuadRegion.handle]
    cases hx : q.panX ord np_roots p with
    | none => simp [hx]
    | some x =>
      cases hy : q.panY ord np_roots p with
      | none => simp [hy]
      | some y =>
        simp only
        split_ifs with hdot
        · constructor
          · intro _
            exact Or.inr (Or.inr ⟨x, y, rfl, rfl, hdot⟩)
          · intro _; rfl
        · constructor
          · intro h; cases h
          · intro h
            rcases h with h | h | ⟨x', y', hx', hy', hdot'⟩
            · cases h
            · cases h
            · rw [Option.some_inj.1 hx', Option.some_inj.1 hy'] at hdot
              exact absurd hdot' hdot
  · intro x y hx hy hdot
    rw [QuadRegion.handle, hx, hy]
    simp only
    rw [if_neg hdot]
  · intro hinj x y k
    exact remap_oc ord _ hinj k

/-- A concrete quad region used by the C3 witness. -/
noncomputable def quadW : QuadRegion :=
  { output_channels := ![0, 1, 2, 3], positions := fun _ => ![0, 0, 0] }

/-- Witness for C3: with a root finder returning no roots, the quad region
rejects the position. -/
theorem C3_quad_region_witness :
    quadW.handle id (fun _ => ([] : List ℂ)) ![1, 0, 0] = none :=
  ((C3_quad_region quadW id (fun _ => ([] : List ℂ))
    (fun _ z hz => absurd hz (List.not_mem_nil z)) ![1, 0, 0]).2.2.2.1).mpr
    (Or.inl rfl)

/-! ## Virtual apex speakers and apex ngons (`_configure_full`) -/

/-- `virtual_positions` in `_configure_full`: always `(0,0,-1)`, plus
`(0,0,1)` unless `T+000` or `UH+180` is among the layout's channel names. -/
noncomputable def virtual_positions (channel_names : List String) :
    List (Fin 3 → ℝ) :=
  [![0, 0, -1]] ++
    (if ¬ ("T+000" ∈ channel_names ∨ "UH+180" ∈ channel_names)
     then [![0, 0, 1]] else [])

/-- `_adjacent_verts`: the vertices sharing a facet with `vert`, excluding
`vert` itself. -/
def adjacent_verts (facets : List (Finset ℕ)) (vert : ℕ) : Finset ℕ :=
  ((facets.filter (fun f => vert ∈ f)).foldr
    (fun (f : Finset ℕ) acc => f.erase vert ∪ acc) ∅).erase vert

/-- The `VirtualNgon` built in `_configure_full` for one virtual apex
vertex: output channels are the hull-adjacent vertices (enumerated from
the vertex set), positions are their real positions, the centre is the
apex position, and the centre downmix is the constant `1/√n` — an equal
power downmix from the virtual speaker to the `n` adjacent real
speakers. -/
noncomputable def apexNgon (positions_real : ℕ → Fin 3 → ℝ)
    (facets : List (Finset ℕ)) (virtual_vert : ℕ) :
    VirtualNgon (adjacent_verts facets virtual_vert).card :=
  { output_channels := fun i =>
      ((adjacent_verts facets virtual_vert).sort (· ≤ ·)).get
        (Fin.cast (Finset.length_sort (· ≤ ·)).symm i)
    positions := fun i => positions_real
      (((adjacent_verts facets virtual_vert).sort (· ≤ ·)).get
        (Fin.cast (Finset.length_sort (· ≤ ·)).symm i))
    centre_position := positions_real virtual_vert
    centre_downmix := fun _ =>
      1 / Real.sqrt ((adjacent_verts facets virtual_vert).card) }

/-- C6: the configuration of a non-stereo layout always includes the lower
virtual apex `(0,0,-1)` (first in the virtual position list), includes the
upper apex `(0,0,1)` iff neither `T+000` nor `UH+180` is a channel name,
and builds for each apex a `VirtualNgon` whose output channels enumerate
exactly the hull-adjacent vertices, whose positions and centre are taken
from the real position table, and whose centre downmix entries all equal
`1/√n` for `n` the number of adjacent vertices. -/
theorem C6_configure_full_apexes (channel_names : List String)
    (positions_real : ℕ → Fin 3 → ℝ) (facets : List (Finset ℕ)) (virtual_vert : ℕ) :
    (virtual_positions channel_names).get? 0 = some ![0, 0, -1]
    ∧ ((![0, 0, 1] ∈ virtual_positions channel_names)
        ↔ ¬ ("T+000" ∈ channel_names ∨ "UH+180" ∈ channel_names))
    ∧ (∀ i, (apexNgon positions_real facets virtual_vert).centre_downmix i
        = 1 / Real.sqrt ((adjacent_verts facets virtual_vert).card))
    ∧ (apexNgon positions_real facets virtual_vert).centre_position
        = positions_real virtual_vert
    ∧ (∀ i, (apexNgon positions_real facets virtual_vert).output_channels i
        ∈ adjacent_verts facets virtual_vert)
    ∧ (∀ w ∈ adjacent_verts facets virtual_vert, ∃ i,
        (apexNgon positions_real facets virtual_vert).output_channels i = w)
    ∧ (∀ i, (apexNgon positions_real facets virtual_vert).positions i
        = positions_real
            ((apexNgon positions_real facets virtual_vert).output_channels i)) := by
  have hne : (![0, 0, 1] : Fin 3 → ℝ) ≠ ![0, 0, -1] := by
    intro h
    have h2 := congrFun h 2
    norm_num at h2
  refine ⟨?_, ?_, fun i => rfl, rfl, ?_, ?_, fun i => rfl⟩
  · rw [virtual_positions]
    by_cases hc : "T+000" ∈ channel_names ∨ "UH+180" ∈ channel_names <;> simp [hc]
  · rw [virtual_positions]
    by_cases hc : "T+000" ∈ channel_names ∨ "UH+180" ∈ channel_names
    · rw [if_neg (not_not_intro hc)]
      simp only [List.append_nil, List.mem_singleton]
      exact ⟨fun h => absurd h hne, fun h => absurd hc h⟩
    · rw [if_pos hc]
      simp only [List.cons_append, List.nil_append, List.mem_cons, List.mem_singleton]
      constructor
      · intro _; exact hc
      · intro _; exact Or.inr (Or.inl trivial)
  · intro i
    rw [← Finset.mem_sort (α := ℕ) (· ≤ ·)]
    exact List.get_mem _ _ _
  · intro w hw
    rcases List.mem_iff_get.1 ((Finset.mem_sort (α := ℕ) (· ≤ ·)).2 hw) with ⟨nidx, hn⟩
    refine ⟨Fin.cast (Finset.length_sort (· ≤ ·)) nidx, ?_⟩
    have hcast : (Fin.cast (Finset.length_sort (α := ℕ) (· ≤ ·)).symm
        (Fin.cast (Finset.length_sort (α := ℕ) (· ≤ ·)) nidx)) = nidx := by
      apply Fin.ext
      rfl
    show ((adjacent_verts facets virtual_vert).sort (· ≤ ·)).get _ = w
    rw [hcast]
    exact hn

/-- Witness for C6: a concrete apex ngon stores the apex position as its
centre. -/
theorem C6_configure_full_apexes_witness :
    (apexNgon (fun _ => ![1, 0, 0]) [({0, 1, 2} : Finset ℕ)] 2).centre_position
      = (fun _ : ℕ => (![1, 0, 0] : Fin 3 → ℝ)) 2 :=
  (C6_configure_full_apexes ["M+000"] (fun _ => ![1, 0, 0])
    [({0, 1, 2} : Finset ℕ)] 2).2.2.2.1

/-! ## extra_pos_vertical_nominal (pure rational arithmetic, embedded on ℚ) -/

/-- The polar data of one channel as read by `extra_pos_vertical_nominal`:
nominal azimuth and elevation, real azimuth and elevation. -/
structure ChannelPos where
  nominal_az : ℚ
  nominal_el : ℚ
  real_az : ℚ
  real_el : ℚ
deriving DecidableEq

/-- The mid-layer test `(-10 <= pos.nominal_el) & (pos.nominal_el <= 10)`. -/
def isMid (c : ChannelPos) : Bool :=
  decide (-10 ≤ c.nominal_el ∧ c.nominal_el ≤ 10)

/-- Membership in an outer layer band `layer_lb <= nominal_el <= layer_ub`. -/
def inLayer (lb ub : ℚ) (c : ChannelPos) : Bool :=
  decide (lb ≤ c.nominal_el ∧ c.nominal_el ≤ ub)

/-- `np.max` over a list of nonnegative rationals (the absolute azimuths);
`0` on the empty list, where the code never reads the value because the
branch is guarded by `np.any(layer)`. -/
def listMax (l : List ℚ) : ℚ := l.foldr max 0

theorem listMax_spec (l : List ℚ) (hl : l ≠ []) (h0 : ∀ x ∈ l, 0 ≤ x) :
    listMax l ∈ l ∧ ∀ x ∈ l, x ≤ listMax l := by
  induction l with
  | nil => exact absurd rfl hl
  | cons a t ih =>
    rcases eq_or_ne t [] with rfl | ht
    · constructor
      · rw [show listMax [a] = a from
          max_eq_left (h0 a (List.mem_cons_self a []))]
        exact List.mem_cons_self a []
      · intro x hx
        rcases List.mem_cons.1 hx with rfl | hx'
        · exact le_max_left _ _
        · cases hx'
    · have ih' := ih ht (fun x hx => h0 x (List.mem_cons_of_mem a hx))
      have hun : listMax (a :: t) = max a (listMax t) := rfl
      constructor
      · rcases le_total a (listMax t) with hle | hle
        · rw [hun, max_eq_right hle]
          exact List.mem_cons_of_mem a ih'.1
        · rw [hun, max_eq_left hle]
          exact List.mem_cons_self a t
      · intro x hx
        rcases List.mem_cons.1 hx with rfl | hx'
        · rw [hun]; exact le_max_left _ _
        · rw [hun]
          exact le_trans (ih'.2 x hx') (le_max_right _ _)

/-- The channels of the current layer. -/
def layerOf (chans : List ChannelPos) (lb ub : ℚ) : List ChannelPos :=
  chans.filter (inLayer lb ub)

/-- `az_limit = az_range + 40` on a non-empty layer, `0.0` otherwise. -/
def azLimit (chans : List ChannelPos) (lb ub : ℚ) : ℚ :=
  if (layerOf chans lb ub).isEmpty then 0
  else listMax ((layerOf chans lb ub).map (fun c => |c.nominal_az|)) + 40

/-- `layer_real_el`: the mean real elevation on a non-empty layer, the
target nominal elevation otherwise. -/
def layerRealEl (chans : List ChannelPos) (layer_nominal_el lb ub : ℚ) : ℚ :=
  if (layerOf chans lb ub).isEmpty then layer_nominal_el
  else ((layerOf chans lb ub).map (fun c => c.real_el)).sum
    / (layerOf chans lb ub).length

/-- One layer pass of `extra_pos_vertical_nominal`: the extra channels added
for this layer, each paired with the index of the mid-layer channel it is
downmixed to (the downmix row written for it selects that channel). -/
def layerExtras (chans : List ChannelPos) (layer_nominal_el lb ub : ℚ) :
    List (ℕ × ChannelPos) :=
  (chans.enum.filter (fun ic => isMid ic.2)).filterMap (fun ic =>
    if azLimit chans lb ub - 1e-5 ≤ |ic.2.nominal_az|
    then some (ic.1,
      { nominal_az := ic.2.nominal_az, nominal_el := layer_nominal_el,
        real_az := ic.2.real_az,
        real_el := layerRealEl chans layer_nominal_el lb ub })
    else none)

/-- `extra_pos_vertical_nominal`: the extras of the lower layer
`(-30, -70, -10)` followed by those of the upper layer `(30, 10, 70)`. -/
def extra_pos_vertical_nominal (chans : List ChannelPos) : List (ℕ × ChannelPos) :=
  layerExtras chans (-30) (-70) (-10) ++ layerExtras chans 30 10 70

/-- The row list `downmix` built by `extra_pos_vertical_nominal`: the
`n × n` identity followed by one selector row per extra channel. -/
def downmixRows (n : ℕ) (extras : List (ℕ × ChannelPos)) : List (List ℚ) :=
  (List.range n).map (fun i => (List.range n).map (fun j => if i = j then 1 else 0))
    ++ extras.map (fun e => (List.range n).map (fun j => if j = e.1 then 1 else 0))

/-- Entry `(i, j)` of the transposed row list `np.array(downmix).T`. -/
def transposeAt (rows : List (List ℚ)) (i j : ℕ) : ℚ :=
  ((rows[j]?).bind (fun r => r[i]?)).getD 0

theorem layerExtras_mem (chans : List ChannelPos) (lnel lb ub : ℚ)
    (idx : ℕ) (e : ChannelPos) :
    (idx, e) ∈ layerExtras chans lnel lb ub ↔
      ∃ c, chans[idx]? = some c ∧ isMid c = true
        ∧ azLimit chans lb ub - 1e-5 ≤ |c.nominal_az|
        ∧ e = { nominal_az := c.nominal_az, nominal_el := lnel,
                real_az := c.real_az,
                real_el := layerRealEl chans lnel lb ub } := by
  rw [layerExtras, List.mem_filterMap]
  constructor
  · rintro ⟨ic, hic, hf⟩
    have hmem := List.mem_filter.1 hic
    split_ifs at hf with hcond
    · have heq := Option.some_inj.1 hf
      refine ⟨ic.2, ?_, hmem.2, hcond, ?_⟩
      · have h1 : ic.1 = idx := congrArg Prod.fst heq
        have h2 := List.mem_enum_iff_getElem?.1 hmem.1
        rw [← h1]
        exact h2
      · exact (congrArg Prod.snd heq).symm
  · rintro ⟨c, hc, hmid, hcond, he⟩
    refine ⟨(idx, c), ?_, ?_⟩
    · exact List.mem_filter.2 ⟨List.mem_enum_iff_getElem?.2 hc, hmid⟩
    · rw [if_pos hcond, he]

/-- C7: `extra_pos_vertical_nominal` processes the lower layer
`(-30, -70, -10)` then the upper layer `(30, 10, 70)`; on a non-empty layer
`az_limit` is the maximum absolute nominal azimuth of the layer plus 40 and
the extras take the mean real elevation of the layer, otherwise
`az_limit = 0` and the extras take the target elevation; one extra is added
per layer for exactly the mid-layer channels with `|nominal az| ≥
az_limit − 1e-5`; the downmix row list is the identity followed by one
selector row per extra, so its transpose has `n` rows and `n + #extras`
columns, is the identity on the first `n` columns, and column `n + k` is
the indicator of the `k`-th extra's mid channel. -/
theorem C7_extra_pos_vertical_nominal (chans : List ChannelPos) :
    (extra_pos_vertical_nominal chans
        = layerExtras chans (-30) (-70) (-10) ++ layerExtras chans 30 10 70)
    ∧ (∀ lnel lb ub idx e, (idx, e) ∈ layerExtras chans lnel lb ub ↔
        ∃ c, chans[idx]? = some c ∧ isMid c = true
          ∧ azLimit chans lb ub - 1e-5 ≤ |c.nominal_az|
          ∧ e = { nominal_az := c.nominal_az, nominal_el := lnel,
                  real_az := c.real_az,
                  real_el := layerRealEl chans lnel lb ub })
    ∧ (∀ lb ub, (layerOf chans lb ub ≠ [] →
          azLimit chans lb ub
            = listMax ((layerOf chans lb ub).map (fun c => |c.nominal_az|)) + 40
          ∧ (azLimit chans lb ub - 40)
              ∈ (layerOf chans lb ub).map (fun c => |c.nominal_az|)
          ∧ ∀ c ∈ layerOf chans lb ub, |c.nominal_az| ≤ azLimit chans lb ub - 40)
        ∧ (layerOf chans lb ub = [] → azLimit chans lb ub = 0))
    ∧ (∀ lnel lb ub, (layerOf chans lb ub ≠ [] →
          layerRealEl chans lnel lb ub
            = ((layerOf chans lb ub).map (fun c => c.real_el)).sum
              / (layerOf chans lb ub).length)
        ∧ (layerOf chans lb ub = [] → layerRealEl chans lnel lb ub = lnel))
    ∧ (∀ extras : List (ℕ × ChannelPos),
        (downmixRows chans.length extras).length = chans.length + extras.length
        ∧ ∀ r ∈ downmixRows chans.length extras, r.length = chans.length)
    ∧ (∀ (extras : List (ℕ × ChannelPos)) i j, i < chans.length → j < chans.length →
        transposeAt (downmixRows chans.length extras) i j = if i = j then 1 else 0)
    ∧ (∀ (extras : List (ℕ × ChannelPos)) i k mc e, i < chans.length →
        extras[k]? = some (mc, e) →
        transposeAt (downmixRows chans.length extras) i (chans.length + k)
          = if i = mc then 1 else 0) := by
  refine ⟨rfl, layerExtras_mem chans, ?_, ?_, ?_, ?_, ?_⟩
  · intro lb ub
    constructor
    · intro hne
      have hmap : (layerOf chans lb ub).map (fun c => |c.nominal_az|) ≠ [] := by
        simpa using hne
      have hspec := listMax_spec _ hmap (by
        intro x hx
        rcases List.mem_map.1 hx with ⟨c, _, rfl⟩
        exact abs_nonneg _)
      have hval : azLimit chans lb ub
          = listMax ((layerOf chans lb ub).map (fun c => |c.nominal_az|)) + 40 := by
        rw [azLimit, if_neg (by simpa [List.isEmpty_iff] using hne)]
      refine ⟨hval, ?_, ?_⟩
      · rw [hval]
        simpa using hspec.1
      · intro c hc
        rw [hval]
        have := hspec.2 _ (List.mem_map.2 ⟨c, hc, rfl⟩)
        linarith
    · intro hemp
      rw [azLimit, if_pos (by simpa [List.isEmpty_iff] using hemp)]
  · intro lnel lb ub
    constructor
    · intro hne
      rw [layerRealEl, if_neg (by simpa [List.isEmpty_iff] using hne)]
    · intro hemp
      rw [layerRealEl, if_pos (by simpa [List.isEmpty_iff] using hemp)]
  · intro extras
    constructor
    · rw [downmixRows, List.length_append, List.length_map, List.length_map,
        List.length_range]
    · intro r hr
      rw [downmixRows] at hr
      rcases List.mem_append.1 hr with h | h
      · rcases List.mem_map.1 h with ⟨i, _, rfl⟩
        rw [List.length_map, List.length_range]
      · rcases List.mem_map.1 h with ⟨e, _, rfl⟩
        rw [List.length_map, List.length_range]
  · intro extras i j hi hj
    rw [transposeAt, downmixRows,
      List.getElem?_append_left (by
        rw [List.length_map, List.length_range]; exact hj),
      List.getElem?_map, List.getElem?_range hj]
    simp only [Option.map_some', Option.some_bind]
    rw [List.getElem?_map, List.getElem?_range hi]
    simp only [Option.map_some', Option.getD_some]
    by_cases h : i = j
    · rw [if_pos h, if_pos h.symm]
    · rw [if_neg h, if_neg (Ne.symm h)]
  · intro extras i k mc e hi hk
    rw [transposeAt, downmixRows,
      List.getElem?_append_right (by
        rw [List.length_map, List.length_range]; exact Nat.le_add_right _ _)]
    rw [List.length_map, List.length_range, Nat.add_sub_cancel_left,
      List.getElem?_map, hk]
    simp only [Option.map_some', Option.some_bind]
    rw [List.getElem?_map, List.getElem?_range hi]
    simp only [Option.map_some', Option.getD_some]

/-- A one-channel layout (a single mid-layer channel at azimuth 0) used by
the C7 witness. -/
def chansW : List ChannelPos :=
  [{ nominal_az := 0, nominal_el := 0, real_az := 0, real_el := 0 }]

/-- Witness for C7: the transposed downmix of the one-channel layout is 1 at
its identity entry. -/
theorem C7_extra_pos_vertical_nominal_witness :
    transposeAt (downmixRows chansW.length (extra_pos_vertical_nominal chansW)) 0 0
      = 1 := by
  have h := (C7_extra_pos_vertical_nominal chansW).2.2.2.2.2.1
    (extra_pos_vertical_nominal chansW) 0 0 (by decide) (by decide)
  rw [h]
  rfl

end EarCore
